import Mathlib

/-!
Verification of the NaiveDB single-file storage engine (`src/table.h`).

The development shallowly embeds the storage engine: C++ strings are lists of
byte values (`Str`), files are lists of bytes, the in-memory index
(`Table::header`, a `vector<pair<long long, long long>>`) is a list of
`Int × Int` pairs, and every `Table` method used by the claims is translated
into an executable Lean function.  Machine integers are modelled as `Int`/`Nat`
with explicit reduction modulo `2 ^ width` where the code writes fixed-width
two's-complement bytes.  Methods that can throw (`vector::at`, `std::stoll`)
return `Except`.

Platform facts baked into the model (the code relies on them):
  * `sizeof(table_name) = 255`, `sizeof(unsigned) = 4`, `sizeof(time_t) = 8`,
    hence `HEADER_SIZE = 267` (LP64).
  * `ofstream::tellp()` on a stream opened with `ios::app` reports the current
    end of file, which is also the documented layout of the header file
    ("| ID_1 | 64 + HEADER_SIZE | ...").  So the recorded registry position is
    the data file's length at the time of the call.
  * `operator<<` on `float`/`double` uses the stream defaults: `%g` style with
    precision 6.
-/

set_option maxRecDepth 100000

deriving instance DecidableEq for Except

namespace NaiveDB

/-- A C++ `std::string` / byte buffer: a list of byte values. -/
abbrev Str := List Nat

/-- Byte values of an ASCII Lean string literal (used to build concrete inputs). -/
def txt (s : String) : Str := s.toList.map Char.toNat

/-! ## Fixed-width little-endian byte serialization (`file.write` of a machine value) -/

/-- The `w` little-endian bytes of `v` (the bytes `file.write` emits for a
`w`-byte unsigned machine value holding `v % 2^(8*w)`). -/
def natToBytes : Nat → Nat → List Nat
  | 0, _ => []
  | w + 1, v => v % 256 :: natToBytes w (v / 256)

/-- Reassemble a little-endian byte list into the unsigned value it denotes
(the value `file.read` deposits into a `w`-byte machine integer). -/
def bytesToNat : List Nat → Nat
  | [] => 0
  | b :: bs => b % 256 + 256 * bytesToNat bs

theorem natToBytes_length (w v : Nat) : (natToBytes w v).length = w := by
  induction w generalizing v with
  | zero => rfl
  | succ w ih => simp [natToBytes, ih]

theorem bytesToNat_natToBytes (w v : Nat) :
    bytesToNat (natToBytes w v) = v % 2 ^ (8 * w) := by
  induction w generalizing v with
  | zero => simp [natToBytes, bytesToNat, Nat.mod_one]
  | succ w ih =>
    simp only [natToBytes, bytesToNat, ih]
    have hmod : v % 256 % 256 = v % 256 := Nat.mod_mod_of_dvd v dvd_rfl
    rw [hmod]
    have hpow : 2 ^ (8 * (w + 1)) = 256 * 2 ^ (8 * w) := by ring
    rw [hpow]
    set M := 2 ^ (8 * w) with hM
    have hMpos : 0 < M := Nat.pos_pow_of_pos _ (by norm_num)
    have hu : v / 256 % M < M := Nat.mod_lt _ hMpos
    have hlt : v % 256 + 256 * (v / 256 % M) < 256 * M := by
      have h2 : v % 256 < 256 := Nat.mod_lt _ (by norm_num)
      omega
    have h3 : v / 256 % M + M * (v / 256 / M) = v / 256 := by
      have := Nat.div_add_mod (v / 256) M
      omega
    calc v % 256 + 256 * (v / 256 % M)
        = (v % 256 + 256 * (v / 256 % M)) % (256 * M) := (Nat.mod_eq_of_lt hlt).symm
      _ = (v % 256 + 256 * (v / 256 % M) + 256 * M * (v / 256 / M)) % (256 * M) :=
          (Nat.add_mul_mod_self_left _ _ _).symm
      _ = v % (256 * M) := by
          congr 1
          calc v % 256 + 256 * (v / 256 % M) + 256 * M * (v / 256 / M)
              = v % 256 + 256 * (v / 256 % M + M * (v / 256 / M)) := by ring
            _ = v % 256 + 256 * (v / 256) := by rw [h3]
            _ = v := by omega

/-! ## Two's-complement encode/decode of signed machine integers -/

/-- Bytes written for a signed `w`-byte integer (two's complement, native order). -/
def encIntBytes (w : Nat) (n : Int) : List Nat :=
  natToBytes w (n % (2 ^ (8 * w) : Nat)).toNat

/-- Signed value read back from a `w`-byte buffer. -/
def decIntBytes (w : Nat) (bs : List Nat) : Int :=
  let m := bytesToNat bs
  if m < 2 ^ (8 * w - 1) then (m : Int) else (m : Int) - (2 ^ (8 * w) : Nat)

theorem encIntBytes_length (w : Nat) (n : Int) : (encIntBytes w n).length = w :=
  natToBytes_length w _

theorem decEncIntBytes (w : Nat) (n : Int) (hw : 0 < w)
    (h1 : -(2 ^ (8 * w - 1)) ≤ n) (h2 : n < 2 ^ (8 * w - 1)) :
    decIntBytes w (encIntBytes w n) = n := by
  have hcast : (((2 ^ (8 * w) : Nat) : Int)) = 2 ^ (8 * w) := by push_cast; rfl
  have hcastH : (((2 ^ (8 * w - 1) : Nat) : Int)) = 2 ^ (8 * w - 1) := by push_cast; rfl
  have hNH : (2 ^ (8 * w) : Int) = 2 * 2 ^ (8 * w - 1) := by
    have hsplit : 8 * w = (8 * w - 1) + 1 := by omega
    calc (2 ^ (8 * w) : Int) = 2 ^ ((8 * w - 1) + 1) := by rw [← hsplit]
      _ = 2 ^ (8 * w - 1) * 2 := pow_succ 2 _
      _ = 2 * 2 ^ (8 * w - 1) := by ring
  have hHpos : (0 : Int) < 2 ^ (8 * w - 1) := by positivity
  have hppos : (0 : Int) < ((2 ^ (8 * w) : Nat) : Int) := by rw [hcast]; positivity
  have hmodpos : 0 ≤ n % ((2 ^ (8 * w) : Nat) : Int) := Int.emod_nonneg n (by omega)
  have hmodlt : n % ((2 ^ (8 * w) : Nat) : Int) < ((2 ^ (8 * w) : Nat) : Int) :=
    Int.emod_lt_of_pos n hppos
  unfold decIntBytes encIntBytes
  rw [bytesToNat_natToBytes]
  have hsmall : (n % ((2 ^ (8 * w) : Nat) : Int)).toNat < 2 ^ (8 * w) := by omega
  rw [Nat.mod_eq_of_lt hsmall]
  by_cases hn : 0 ≤ n
  · have hm : n % ((2 ^ (8 * w) : Nat) : Int) = n := by
      apply Int.emod_eq_of_lt hn
      rw [hcast, hNH]
      omega
    rw [hm]
    have hlt : n.toNat < 2 ^ (8 * w - 1) := by omega
    simp only [hlt, if_true]
    omega
  · push_neg at hn
    have hm : n % ((2 ^ (8 * w) : Nat) : Int) = n + ((2 ^ (8 * w) : Nat) : Int) := by
      have hx : (n + ((2 ^ (8 * w) : Nat) : Int) * 1) % ((2 ^ (8 * w) : Nat) : Int)
          = n % ((2 ^ (8 * w) : Nat) : Int) :=
        Int.add_mul_emod_self_left n (((2 ^ (8 * w) : Nat) : Int)) 1
      have hlo : 0 ≤ n + ((2 ^ (8 * w) : Nat) : Int) := by
        rw [hcast, hNH]; omega
      have hhi : n + ((2 ^ (8 * w) : Nat) : Int) < ((2 ^ (8 * w) : Nat) : Int) := by omega
      have hy := Int.emod_eq_of_lt hlo hhi
      rw [mul_one] at hx
      omega
    rw [hm]
    have hge : ¬ ((n + ((2 ^ (8 * w) : Nat) : Int)).toNat < 2 ^ (8 * w - 1)) := by
      rw [hcast, hNH] at *
      omega
    simp only [hge, if_false]
    have hlo : 0 ≤ n + ((2 ^ (8 * w) : Nat) : Int) := by rw [hcast, hNH]; omega
    omega

/-! ## Decimal digits, `operator<<` on integers, and `atoi`/`stoll` -/

/-- Most-significant-first decimal digits of `n`, via explicit fuel (structural,
so the kernel can evaluate it).  `decDigitsAux fuel 0 = []`. -/
def decDigitsAux : Nat → Nat → List Nat
  | 0, _ => []
  | fuel + 1, n => if n = 0 then [] else decDigitsAux fuel (n / 10) ++ [n % 10]

/-- Decimal digits of `n`, most significant first (empty for 0). -/
def decDigits (n : Nat) : List Nat := decDigitsAux (n + 1) n

/-- Value of a most-significant-first digit list. -/
def digitsVal (ds : List Nat) : Nat := ds.foldl (fun a d => 10 * a + d) 0

/-- The text `operator<<` produces for an unsigned value. -/
def natText (n : Nat) : Str :=
  if n = 0 then [48] else (decDigits n).map (· + 48)

/-- The text `operator<<` produces for a signed integer (`long long`, `int`). -/
def intText (n : Int) : Str :=
  if n < 0 then 45 :: natText n.natAbs else natText n.toNat

theorem digitsVal_append_singleton (ds : List Nat) (d : Nat) :
    digitsVal (ds ++ [d]) = 10 * digitsVal ds + d := by
  simp [digitsVal, List.foldl_append]

theorem digitsVal_decDigitsAux (fuel n : Nat) (h : n < 10 ^ fuel) :
    digitsVal (decDigitsAux fuel n) = n := by
  induction fuel generalizing n with
  | zero => simp at h; simp [h, decDigitsAux, digitsVal]
  | succ fuel ih =>
    by_cases hn : n = 0
    · simp [hn, decDigitsAux, digitsVal]
    · have hq : n / 10 < 10 ^ fuel := by
        rw [pow_succ] at h
        exact Nat.div_lt_of_lt_mul (by omega)
      simp only [decDigitsAux, hn, if_false]
      rw [digitsVal_append_singleton, ih _ hq]
      omega

theorem lt_ten_pow_succ (n : Nat) : n < 10 ^ (n + 1) := by
  induction n with
  | zero => norm_num
  | succ n ih =>
    have : 10 ^ (n + 1) * 1 < 10 ^ (n + 1) * 10 := by
      have : (0:Nat) < 10 ^ (n + 1) := Nat.pos_pow_of_pos _ (by norm_num)
      omega
    calc n + 1 < 10 ^ (n + 1) + 1 := by omega
    _ ≤ 10 ^ (n + 1) * 10 := by omega
    _ = 10 ^ (n + 2) := by ring

theorem digitsVal_decDigits (n : Nat) : digitsVal (decDigits n) = n :=
  digitsVal_decDigitsAux _ _ (lt_ten_pow_succ n)

theorem decDigitsAux_digits_lt (fuel n : Nat) :
    ∀ d ∈ decDigitsAux fuel n, d < 10 := by
  induction fuel generalizing n with
  | zero => simp [decDigitsAux]
  | succ fuel ih =>
    intro d hd
    by_cases hn : n = 0
    · simp [decDigitsAux, hn] at hd
    · simp only [decDigitsAux, hn, if_false, List.mem_append, List.mem_singleton] at hd
      rcases hd with hd | hd
      · exact ih _ d hd
      · subst hd; exact Nat.mod_lt _ (by norm_num)

theorem decDigits_digits_lt (n : Nat) : ∀ d ∈ decDigits n, d < 10 :=
  decDigitsAux_digits_lt _ n

/-- C locale whitespace, skipped by `atoi`/`stoll`. -/
def isWs (c : Nat) : Bool := decide (c = 32 ∨ (9 ≤ c ∧ c ≤ 13))

/-- ASCII decimal digit. -/
def isDigitB (c : Nat) : Bool := decide (48 ≤ c ∧ c ≤ 57)

/-- Optional leading sign of a numeric literal (`-` = 45, `+` = 43). -/
def parseSign : Str → Bool × Str
  | [] => (false, [])
  | c :: r => if c = 45 then (true, r) else if c = 43 then (false, r) else (false, c :: r)

/-- Value of a most-significant-first digit-character run, with a sign flag. -/
def signedVal (neg : Bool) (ds : List Nat) : Int :=
  (if neg then -1 else 1) * (digitsVal (ds.map (· - 48)) : Int)

/-- The leftmost integer `strtol`-family functions recognise in `s`:
skip whitespace, optional sign, then the maximal run of decimal digits
(`none` when that run is empty).  Shared core of `atoi` and `std::stoll`. -/
def parsedInt (s : Str) : Option Int :=
  if ((parseSign (s.dropWhile isWs)).2.takeWhile isDigitB) = [] then none
  else some (signedVal (parseSign (s.dropWhile isWs)).1
    ((parseSign (s.dropWhile isWs)).2.takeWhile isDigitB))

/-- `atoi`/`atof`-style parse: unparsable text silently becomes 0.  (Out-of-range
values are undefined behaviour in C; theorems restrict to in-range inputs.) -/
def atoiM (s : Str) : Int := (parsedInt s).getD 0

/-- `std::stoll`: throws `invalid_argument` when no digits are found and
`out_of_range` when the value does not fit in `long long`. -/
def stollM (s : Str) : Except String Int :=
  match parsedInt s with
  | none => Except.error "stoll: invalid_argument"
  | some v =>
      if -(2 ^ 63) ≤ v ∧ v < 2 ^ 63 then Except.ok v else Except.error "stoll: out_of_range"

theorem natText_chars (m : Nat) : ∀ c ∈ natText m, 48 ≤ c ∧ c ≤ 57 := by
  unfold natText
  by_cases hm : m = 0
  · simp [hm]
  · simp only [hm, if_false, List.mem_map]
    rintro c ⟨d, hd, rfl⟩
    have := decDigits_digits_lt m d hd
    omega

theorem natText_ne_nil (m : Nat) : natText m ≠ [] := by
  unfold natText
  by_cases hm : m = 0
  · simp [hm]
  · simp only [hm, if_false]
    unfold decDigits decDigitsAux
    simp [hm]

theorem takeWhile_of_all {α : Type} (p : α → Bool) :
    ∀ (l : List α), (∀ x ∈ l, p x) → l.takeWhile p = l
  | [], _ => rfl
  | x :: xs, h => by
    have hx : p x := h x (List.mem_cons_self x xs)
    simp only [List.takeWhile_cons, hx, if_true]
    rw [takeWhile_of_all p xs (fun y hy => h y (List.mem_cons_of_mem x hy))]

theorem takeWhile_append_nil {α : Type} (p : α → Bool) (l l2 : List α)
    (h : l2.takeWhile p = []) : (l ++ l2).takeWhile p = l.takeWhile p := by
  induction l with
  | nil => simpa using h
  | cons a as ih =>
    by_cases ha : p a
    · simp [List.takeWhile_cons, ha, ih]
    · simp [List.takeWhile_cons, ha]

theorem takeWhile_take {α : Type} (p : α → Bool) :
    ∀ (l : List α) (n : Nat), (l.take n).takeWhile p = (l.takeWhile p).take n
  | [], n => by simp
  | a :: as, 0 => by simp
  | a :: as, n + 1 => by
    by_cases ha : p a
    · simp [List.takeWhile_cons, ha, takeWhile_take p as n]
    · simp [List.takeWhile_cons, ha]

theorem mem_takeWhile_sat {α : Type} (p : α → Bool) :
    ∀ (l : List α), ∀ x ∈ l.takeWhile p, p x
  | [], x => by simp
  | a :: as, x => by
    by_cases ha : p a
    · simp only [List.takeWhile_cons, ha, if_true, List.mem_cons]
      rintro (rfl | hx)
      · exact ha
      · exact mem_takeWhile_sat p as x hx
    · simp [List.takeWhile_cons, ha]

theorem takeWhile_natText (m : Nat) :
    (natText m).takeWhile isDigitB = natText m := by
  apply takeWhile_of_all
  intro c hc
  have := natText_chars m c hc
  unfold isDigitB
  simp
  omega

theorem digitsVal_natText (m : Nat) :
    digitsVal ((natText m).map (· - 48)) = m := by
  unfold natText
  by_cases hm : m = 0
  · simp [hm, digitsVal]
  · simp only [hm, if_false, List.map_map]
    have hid : ((fun c => c - 48) ∘ fun d : Nat => d + 48) = id := by
      funext d; simp
    rw [hid, List.map_id, digitsVal_decDigits]

theorem parseSign_digit (c : Nat) (cs : List Nat) (h1 : c ≠ 45) (h2 : c ≠ 43) :
    parseSign (c :: cs) = (false, c :: cs) := by
  simp only [parseSign]
  rw [if_neg h1, if_neg h2]

theorem parsedInt_natText (m : Nat) : parsedInt (natText m) = some (m : Int) := by
  obtain ⟨c, cs, hcons⟩ := List.exists_cons_of_ne_nil (natText_ne_nil m)
  have hc : 48 ≤ c ∧ c ≤ 57 := by
    have := natText_chars m c (by rw [hcons]; exact List.mem_cons_self _ _)
    exact this
  have hws : isWs c = false := by unfold isWs; simp; omega
  have hdrop : (natText m).dropWhile isWs = natText m := by
    rw [hcons, List.dropWhile_cons]
    simp [hws]
  have hsign : parseSign (natText m) = (false, natText m) := by
    rw [hcons]
    exact parseSign_digit c cs (by omega) (by omega)
  by_cases hm : m = 0
  · subst hm
    decide
  · unfold parsedInt
    rw [hdrop, hsign]
    simp only
    rw [takeWhile_natText m]
    simp only [natText_ne_nil m, if_false]
    unfold signedVal
    rw [digitsVal_natText]
    simp

theorem parsedInt_intText (n : Int) : parsedInt (intText n) = some n := by
  unfold intText
  by_cases hn : n < 0
  · simp only [hn, if_true]
    have hm : n.natAbs ≠ 0 := by omega
    unfold parsedInt
    have hdrop : (45 :: natText n.natAbs).dropWhile isWs = 45 :: natText n.natAbs := by
      rw [List.dropWhile_cons]
      simp [isWs]
    have hsign : parseSign (45 :: natText n.natAbs) = (true, natText n.natAbs) := by
      simp [parseSign]
    rw [hdrop, hsign]
    simp only
    rw [takeWhile_natText _]
    simp only [natText_ne_nil _, if_false]
    unfold signedVal
    rw [digitsVal_natText]
    have habs : ((n.natAbs : Int)) = -n := by omega
    rw [habs]
    norm_num
  · simp only [hn, if_false]
    rw [parsedInt_natText]
    have htn : ((n.toNat : Int)) = n := by omega
    rw [htn]

theorem atoiM_intText (n : Int) : atoiM (intText n) = n := by
  unfold atoiM
  rw [parsedInt_intText]
  rfl

theorem stollM_intText (n : Int) (h1 : -(2 ^ 63) ≤ n) (h2 : n < 2 ^ 63) :
    stollM (intText n) = Except.ok n := by
  unfold stollM
  rw [parsedInt_intText]
  simp only
  rw [if_pos ⟨h1, h2⟩]

/-! ## Fixed-width text buffers (`strncpy` + `operator<<` on `char[]`) -/

/-- `strncpy(dst, src.c_str(), w)`: copy up to the terminator, at most `w`
bytes, zero-fill the remainder.  When the source is `w` bytes or longer,
exactly `w` bytes are copied and no terminator is stored. -/
def strncpyBytes (w : Nat) (v : Str) : Str :=
  let p := (v.takeWhile (fun c => decide (c ≠ 0))).take w
  p ++ List.replicate (w - p.length) 0

/-- The spec's description of fixed-text encoding (§4.1): the value truncated
or zero-padded to `byte_width` bytes. -/
def padTrunc (w : Nat) (v : Str) : Str := v.take w ++ List.replicate (w - v.length) 0

theorem strncpyBytes_length (w : Nat) (v : Str) : (strncpyBytes w v).length = w := by
  unfold strncpyBytes
  simp only [List.length_append, List.length_replicate]
  have : ((v.takeWhile (fun c => decide (c ≠ 0))).take w).length ≤ w := by
    simp
  omega

theorem takeWhile_replicate_zero (k : Nat) :
    (List.replicate k 0).takeWhile (fun c : Nat => decide (c ≠ 0)) = [] := by
  cases k with
  | zero => rfl
  | succ k => simp [List.replicate_succ, List.takeWhile_cons]

/-- Trimming at the first terminator gives the same text whether the buffer was
produced by `strncpy` (stops at the source's terminator) or by the spec's
truncate-or-pad description. -/
theorem trim_strncpy_eq_trim_padTrunc (w : Nat) (v : Str) :
    (strncpyBytes w v).takeWhile (fun c => decide (c ≠ 0))
      = (padTrunc w v).takeWhile (fun c => decide (c ≠ 0)) := by
  unfold strncpyBytes padTrunc
  rw [takeWhile_append_nil _ _ _ (takeWhile_replicate_zero _),
      takeWhile_append_nil _ _ _ (takeWhile_replicate_zero _)]
  rw [takeWhile_of_all _ _ (fun x hx => mem_takeWhile_sat _ _ x (List.mem_of_mem_take hx))]
  rw [takeWhile_take]

/-! ## IEEE-754 storage of `float`/`double` and the stream's `%g` text form

The code parses text with `atof`, stores the value's 4- or 8-byte IEEE-754
pattern, and prints it back with the C++ stream defaults, which are `%g`
style with precision 6.  Values are modelled exactly as
sign × numerator × denominator triples of naturals. -/

/-- Is `2^e ≤ num/den` (exact, `e` may be negative, `den > 0`)? -/
def le2pow (num den : Nat) (e : Int) : Bool :=
  if 0 ≤ e then decide (2 ^ e.toNat * den ≤ num) else decide (den ≤ num * 2 ^ (-e).toNat)

/-- `⌊log2 (num/den)⌋` for `num ≠ 0`, searched over (beyond) the binary64 range. -/
def qLog2 (num den : Nat) : Int :=
  (((List.range 2401).map (fun i => (1200 : Int) - i)).find? (fun e => le2pow num den e)).getD
    (-1200)

/-- `num/den` rounded to the nearest integer, ties to even (IEEE default). -/
def rneNat (num den : Nat) : Nat :=
  let q := num / den
  let r := num % den
  if 2 * r < den then q else if den < 2 * r then q + 1 else if q % 2 = 0 then q else q + 1

/-- The nonnegative IEEE-754 bit pattern nearest `num/den`, with `mb` mantissa
bits and `eb` exponent bits: normals, subnormals, rounding carry, and overflow
to infinity. -/
def fbitsPos (mb eb num den : Nat) : Nat :=
  if num = 0 then 0
  else
    let bias : Int := 2 ^ (eb - 1) - 1
    let e0 : Int := qLog2 num den
    let shift : Int := (mb : Int) - e0
    let m0 : Nat :=
      if 0 ≤ shift then rneNat (num * 2 ^ shift.toNat) den else rneNat num (den * 2 ^ (-shift).toNat)
    let em : Int × Nat := if m0 = 2 ^ (mb + 1) then (e0 + 1, 2 ^ mb) else (e0, m0)
    if em.1 + bias ≤ 0 then
      let shift2 : Int := (mb : Int) + bias - 1
      let msub : Nat :=
        if 0 ≤ shift2 then rneNat (num * 2 ^ shift2.toNat) den
        else rneNat num (den * 2 ^ (-shift2).toNat)
      if msub = 2 ^ mb then 2 ^ mb else msub
    else if (2 ^ eb - 1 : Int) ≤ em.1 + bias then (2 ^ eb - 1) * 2 ^ mb
    else (em.1 + bias).toNat * 2 ^ mb + (em.2 - 2 ^ mb)

/-- Full IEEE-754 bit pattern including the sign bit. -/
def fbits (mb eb : Nat) (neg : Bool) (num den : Nat) : Nat :=
  (if neg then 2 ^ (eb + mb) else 0) + fbitsPos mb eb num den

/-- The exact value denoted by an IEEE-754 bit pattern, as
sign × numerator × denominator (finite patterns; the claims never produce the
all-ones exponent, which this model maps through the same normal formula). -/
def fvalOfBits (mb eb b : Nat) : Bool × Nat × Nat :=
  let s := decide (b / 2 ^ (eb + mb) % 2 = 1)
  let E := b / 2 ^ mb % 2 ^ eb
  let m := b % 2 ^ mb
  let bias : Int := 2 ^ (eb - 1) - 1
  let g : Int := if E = 0 then 1 - bias - mb else (E : Int) - bias - mb
  let mant : Nat := if E = 0 then m else 2 ^ mb + m
  if 0 ≤ g then (s, mant * 2 ^ g.toNat, 1) else (s, mant, 2 ^ (-g).toNat)

/-- Exponent suffix of a scientific literal: sign plus digits, or `none`. -/
def expParsed (s : Str) : Option Int :=
  let p := parseSign s
  if p.2.takeWhile isDigitB = [] then none
  else some (signedVal p.1 (p.2.takeWhile isDigitB))

/-- `atof`: parse `[ws][sign]digits[.digits][e[sign]digits]` into the exact
decimal value sign × numerator × denominator; unparsable text silently
yields 0.  (Hex floats and `inf`/`nan` literals are not modelled; the claims
never use them.) -/
def atofVal (s : Str) : Bool × Nat × Nat :=
  let s1 := s.dropWhile isWs
  let p := parseSign s1
  let ip := p.2.takeWhile isDigitB
  let r1 := p.2.dropWhile isDigitB
  let fp : List Nat := match r1 with
    | 46 :: r => r.takeWhile isDigitB
    | _ => []
  let r2 : List Nat := match r1 with
    | 46 :: r => r.dropWhile isDigitB
    | _ => r1
  if ip = [] ∧ fp = [] then (false, 0, 1)
  else
    let mant := digitsVal ((ip ++ fp).map (· - 48))
    let ex : Int := (match r2 with
      | 101 :: r => expParsed r
      | 69 :: r => expParsed r
      | _ => none).getD 0
    let e2 : Int := ex - fp.length
    if 0 ≤ e2 then (p.1, mant * 10 ^ e2.toNat, 1) else (p.1, mant, 10 ^ (-e2).toNat)

/-- Is `10^d ≤ num/den` (exact)? -/
def le10pow (num den : Nat) (d : Int) : Bool :=
  if 0 ≤ d then decide (10 ^ d.toNat * den ≤ num) else decide (den ≤ num * 10 ^ (-d).toNat)

/-- `⌊log10 (num/den)⌋` for `num ≠ 0`, searched over (beyond) the binary64 range. -/
def qLog10 (num den : Nat) : Int :=
  (((List.range 801).map (fun i => (400 : Int) - i)).find? (fun d => le10pow num den d)).getD
    (-400)

/-- `num/den` rounded to 6 significant decimal digits: `(r, X)` with
`10^5 ≤ r < 10^6` and value ≈ `r · 10^(X-5)`. -/
def sig6 (num den : Nat) : Nat × Int :=
  let d := qLog10 num den
  let shift : Int := 5 - d
  let r :=
    if 0 ≤ shift then rneNat (num * 10 ^ shift.toNat) den
    else rneNat num (den * 10 ^ (-shift).toNat)
  if r = 10 ^ 6 then (10 ^ 5, d + 1) else (r, d)

/-- Strip trailing zero digits (what `%g` does to the fractional part). -/
def stripZeros (ds : List Nat) : List Nat :=
  (ds.reverse.dropWhile (fun d => decide (d = 0))).reverse

/-- Decimal digits of `n`, left-padded with zeros to length `k`. -/
def decDigitsPad (k n : Nat) : List Nat :=
  List.replicate (k - (decDigits n).length) 0 ++ decDigits n

/-- `%e`-style exponent field: explicit sign and at least two digits. -/
def expText (x : Int) : Str :=
  (if x < 0 then [45] else [43]) ++
    (if x.natAbs < 10 then [48, 48 + x.natAbs] else natText x.natAbs)

/-- The text `%g` with precision 6 (the C++ stream default) produces for the
exact value sign × num/den.  Zero prints as "0". -/
def fmtG6 (neg : Bool) (num den : Nat) : Str :=
  if num = 0 then [48]
  else
    let rx := sig6 num den
    let L := decDigitsPad 6 rx.1
    let body :=
      if -4 ≤ rx.2 ∧ rx.2 < 6 then
        if 0 ≤ rx.2 then
          let ip := L.take (rx.2.toNat + 1)
          let fp := stripZeros (L.drop (rx.2.toNat + 1))
          ip.map (· + 48) ++ (if fp = [] then [] else 46 :: fp.map (· + 48))
        else
          [48, 46] ++ List.replicate ((-rx.2).toNat - 1) 48 ++ (stripZeros L).map (· + 48)
      else
        let fp := stripZeros (L.drop 1)
        (L.take 1).map (· + 48) ++ (if fp = [] then [] else 46 :: fp.map (· + 48)) ++
          [101] ++ expText rx.2
    (if neg then [45] else []) ++ body

/-- Uncurried `fmtG6` over a sign × numerator × denominator triple. -/
def fmtG6v (t : Bool × Nat × Nat) : Str := fmtG6 t.1 t.2.1 t.2.2

/-! ## Schema contract (external collaborator consumed by the core, §3/§6) -/

/-- Column type tags of `schema.h` (`FOREIGN_KEY` encodes like `INT64`). -/
inductive ColType
  | int32
  | char
  | float
  | double
  | int64
  | foreignKey
deriving DecidableEq

/-- A schema column: name, type tag, and declared width. -/
structure SchemaCol where
  name : String
  type : ColType
  width : Nat
deriving DecidableEq

/-- `SchemaCol::getSize()`: the fixed byte width of the column's field
(32/64-bit numerics; CHAR carries its declared width). -/
def SchemaCol.getSize (c : SchemaCol) : Nat :=
  match c.type with
  | ColType.char => c.width
  | ColType.int32 => 4
  | ColType.float => 4
  | ColType.double => 8
  | ColType.int64 => 8
  | ColType.foreignKey => 8

/-- `Schema::getSize()`: the total payload width of one record. -/
def schemaSize (cols : List SchemaCol) : Nat := (cols.map SchemaCol.getSize).sum

/-- `Schema::getColPosition(name)`: resolve a column name to its position. -/
def getColPosition (cols : List SchemaCol) (n : String) : Nat :=
  cols.findIdx (fun c => c.name == n)

/-! ## Column Codec (`Table::convertAndSave` and the decode loop of `Table::getRow`) -/

/-- `Table::convertAndSave`: the bytes written to the data file for one text
value, per the column's type.  `std::stoll` (INT64 / FOREIGN_KEY) throws on
unparsable or out-of-range text; `atoi`/`atof` silently produce 0. -/
def convertAndSave (v : Str) (col : SchemaCol) : Except String Str :=
  match col.type with
  | ColType.int32 => Except.ok (encIntBytes 4 (atoiM v))
  | ColType.char => Except.ok (strncpyBytes col.getSize v)
  | ColType.float =>
      Except.ok (natToBytes 4 (fbits 23 8 (atofVal v).1 (atofVal v).2.1 (atofVal v).2.2))
  | ColType.double =>
      Except.ok (natToBytes 8 (fbits 52 11 (atofVal v).1 (atofVal v).2.1 (atofVal v).2.2))
  | ColType.int64 => (stollM v).map (encIntBytes 8)
  | ColType.foreignKey => (stollM v).map (encIntBytes 8)

/-- One column's decode step in `Table::getRow`: reinterpret the `getSize`
bytes read from the file and stream the value with `operator<<`.  For CHAR the
stream walks to the first terminator; when the buffer holds none, the C++
reads past the buffer (undefined behaviour) — the model stops at the buffer
end. -/
def decodeCol (col : SchemaCol) (bs : Str) : Str :=
  match col.type with
  | ColType.int32 => intText (decIntBytes 4 bs)
  | ColType.char => bs.takeWhile (fun c => decide (c ≠ 0))
  | ColType.float => fmtG6v (fvalOfBits 23 8 (bytesToNat bs))
  | ColType.double => fmtG6v (fvalOfBits 52 11 (bytesToNat bs))
  | ColType.int64 => intText (decIntBytes 8 bs)
  | ColType.foreignKey => intText (decIntBytes 8 bs)

/-! ## Record Store state (`Table`) -/

/-- `HEADER_SIZE`: `sizeof(table_name) + sizeof(registry_size) + sizeof(time_stamp)`
= 255 + 4 + 8 on LP64. -/
def headerSize : Nat := 267

/-- The observable state of a `Table`: its name, schema, the in-memory index
(`header`: `_id`, `registry_position` pairs), and the two backing files
(`none` = the file does not exist on disk). -/
structure TableState where
  name : Str
  schema : List SchemaCol
  header : List (Int × Int)
  dataFile : Option (List Nat)
  headerFile : Option (List Nat)

/-- A freshly constructed `Table(name)` whose backing files do not exist:
`loadHeader` reads nothing, so the in-memory index starts empty. -/
def mkEmpty (name : Str) (schema : List SchemaCol) : TableState :=
  ⟨name, schema, [], none, none⟩

/-- `Table::insertOnHeaderFile`: append the pair to the header file (created
by the `ios::app` open when absent) and push it onto the in-memory index. -/
def insertOnHeaderFile (s : TableState) (id pos : Int) : TableState :=
  { s with
    headerFile := some ((s.headerFile.getD []) ++ encIntBytes 8 id ++ encIntBytes 8 pos),
    header := s.header ++ [(id, pos)] }

/-- `insert`, step 1: `file.open(path, ios::binary | ios::app)` — creates the
data file when absent, leaves its bytes unchanged. -/
def insOpen (s : TableState) : TableState :=
  { s with dataFile := some (s.dataFile.getD []) }

/-- The `_id` `insert` assigns: the current length of the in-memory index. -/
def insId (s : TableState) : Int := s.header.length

/-- The `registry_position` `insert` records: `file.tellp()` on the
append-mode stream, i.e. the data file's current end. -/
def insPos (s : TableState) : Int := (s.dataFile.getD []).length

/-- `insert`, step 2: `insertOnHeaderFile` runs — the index entry is appended
(header file and in-memory list) before one byte of the record exists. -/
def insIndexed (s : TableState) : TableState :=
  insertOnHeaderFile (insOpen s) (insId s) (insPos s)

/-- The Record Header bytes `insert` writes: `strncpy`ed table name (255),
`registry_size = HEADER_SIZE + schema.getSize()` (4-byte unsigned), and the
insertion timestamp (8 bytes). -/
def regHeaderBytes (s : TableState) (ts : Int) : Str :=
  strncpyBytes 255 s.name ++ natToBytes 4 (headerSize + schemaSize s.schema) ++ encIntBytes 8 ts

/-- `insert`, step 3: the Record Header has been written. -/
def insHeadered (s : TableState) (ts : Int) : TableState :=
  { insIndexed s with
    dataFile := some ((s.dataFile.getD []) ++ regHeaderBytes s ts) }

/-- The column loop of `insert`: encode each value against the schema column
at its running position (`schema_cols->at` throws past the schema's end, and
`convertAndSave` may throw).  Returns the bytes buffered before any exception,
and the outcome. -/
def writeRowVals (schema : List SchemaCol) : List Str → Nat → Str × Except String Unit
  | [], _ => ([], Except.ok ())
  | v :: vs, i =>
    match schema[i]? with
    | none => ([], Except.error "vector::at out_of_range")
    | some c =>
      match convertAndSave v c with
      | Except.error e => ([], Except.error e)
      | Except.ok bs =>
        let rest := writeRowVals schema vs (i + 1)
        (bs ++ rest.1, rest.2)

/-- Does the column loop run to completion (no `stoll`/`at` exception)? -/
def encodesFrom (schema : List SchemaCol) : List Str → Nat → Bool
  | [], _ => true
  | v :: vs, i =>
    match schema[i]? with
    | none => false
    | some c =>
      match convertAndSave v c with
      | Except.error _ => false
      | Except.ok _ => encodesFrom schema vs (i + 1)

/-- `Table::insert`: the resulting state and the returned `_id` — or the
exception `std::stoll` / `vector::at` lets escape, in which case the bytes
already buffered are still flushed when the `ofstream` is destroyed during
unwinding.  The `_id` text is prepended to the row before the column loop. -/
def insert (s : TableState) (ts : Int) (row : List Str) : TableState × Except String Int :=
  let body := writeRowVals s.schema (intText (insId s) :: row) 0
  ({ insIndexed s with
      dataFile := some ((s.dataFile.getD []) ++ regHeaderBytes s ts ++ body.1) },
   body.2.map (fun _ => insId s))

/-- The states one `insert` call passes through, in program order: after the
data-file open, after `insertOnHeaderFile`, after the Record Header write, and
after the column loop completes (or unwinds). -/
def insertStates (s : TableState) (ts : Int) (row : List Str) : List TableState :=
  [insOpen s, insIndexed s, insHeadered s ts, (insert s ts row).1]

/-! ## Reads -/

/-- Bytes an `ifstream` read of `n` bytes at `pos` delivers: a read past
end-of-file fails and leaves the rest of the destination buffer untouched —
the C++ then streams uninitialized memory, whose unspecified bytes the model
fixes to 0.  Reading a nonexistent file behaves like reading an empty one
(the open fails, so every read fails). -/
def readBytesAt (file : List Nat) (pos n : Nat) : List Nat :=
  (file.drop pos).take n ++ List.replicate (n - ((file.drop pos).take n).length) 0

/-- The decode loop of `Table::getRow`, from byte offset `off`. -/
def getRowCols (file : List Nat) : List SchemaCol → Nat → List Str
  | [], _ => []
  | c :: cs, off =>
    decodeCol c (readBytesAt file off c.getSize) :: getRowCols file cs (off + c.getSize)

/-- `Table::getRow`: seek to `registry_position`, read the Record Header
(267 bytes, discarded), then read and decode every schema column in order.
A negative position makes the seek fail (the claims only use nonnegative
offsets; the model clamps at 0). -/
def getRow (s : TableState) (pos : Int) : List Str :=
  getRowCols (s.dataFile.getD []) s.schema (pos.toNat + headerSize)

/-- `Table::getRowById`: `lower_bound` over the index ordered by `_id` — on
the sorted index (invariant of claim C3) this is the first entry whose id is
`≥ _id` — then `header->at(idx)`, which throws `std::out_of_range` when
`lower_bound` returned `end()`, and the found-id equality test; a mismatch
returns the empty row. -/
def getRowById (s : TableState) (id : Int) : Except String (List Str) :=
  match s.header[s.header.findIdx (fun e => decide (id ≤ e.1))]? with
  | none => Except.error "vector::at out_of_range"
  | some p => if p.1 = id then Except.ok (getRow s p.2) else Except.ok []

/-- `Table::drop`: `remove` both backing files and clear the in-memory index. -/
def drop (s : TableState) : TableState :=
  { s with dataFile := none, headerFile := none, header := [] }

/-- `row_count()` of the spec: the length of the in-memory index
(`header->size()`). -/
def rowCount (s : TableState) : Nat := s.header.length

/-! ## Join Engine -/

/-- `Table::nestedLoopJoin` (receiver = inner table): for every inner row (by
ascending index position) and every outer row (likewise), decode both rows
and push the pair of registry positions when the chosen columns' decoded
texts compare equal.  `row.at(position)` throws on an unresolved column; the
claims only use resolvable names (the model reads a default there). -/
def nestedLoopJoin (inner outer : TableState) (outerColName innerColName : String) :
    List (List Int) :=
  (List.range inner.header.length).foldl (fun acc i =>
    (List.range outer.header.length).foldl (fun acc2 j =>
      if (getRow inner (inner.header.getD i (0, 0)).2).getD
            (getColPosition inner.schema innerColName) []
          = (getRow outer (outer.header.getD j (0, 0)).2).getD
            (getColPosition outer.schema outerColName) [] then
        acc2 ++ [[(inner.header.getD i (0, 0)).2, (outer.header.getD j (0, 0)).2]]
      else acc2) acc) []

/-- `Table::indexNestedLoopJoin`: identical predicate and output shape, but
the inner side is fixed to the single row at index position `innerIndex`
(`header->at(inner_index)`, which throws on an invalid position; the claims
restrict to valid ones). -/
def indexNestedLoopJoin (inner outer : TableState) (outerColName innerColName : String)
    (innerIndex : Nat) : List (List Int) :=
  (List.range outer.header.length).foldl (fun acc2 j =>
    if (getRow inner (inner.header.getD innerIndex (0, 0)).2).getD
          (getColPosition inner.schema innerColName) []
        = (getRow outer (outer.header.getD j (0, 0)).2).getD
          (getColPosition outer.schema outerColName) [] then
      acc2 ++ [[(inner.header.getD innerIndex (0, 0)).2, (outer.header.getD j (0, 0)).2]]
    else acc2) []

/-! ## Operation sequences -/

/-- The public operations on one store (joins carry the other store as an
argument), for stating state invariants over arbitrary call sequences. -/
inductive Op
  | opInsert (ts : Int) (row : List Str)
  | opDrop
  | opGetRow (pos : Int)
  | opGetRowById (id : Int)
  | opNestedJoin (outer : TableState) (ocn icn : String)
  | opIndexJoin (outer : TableState) (ocn icn : String) (p : Nat)

/-- The output of one public operation. -/
inductive OpOut
  | outIns (r : Except String Int)
  | outUnit
  | outRow (r : List Str)
  | outRowE (r : Except String (List Str))
  | outJoin (r : List (List Int))

/-- Run one public operation: the state afterwards and its output, exactly as
the corresponding `Table` method computes them. -/
def execOp (s : TableState) : Op → TableState × OpOut
  | Op.opInsert ts row => ((insert s ts row).1, OpOut.outIns (insert s ts row).2)
  | Op.opDrop => (drop s, OpOut.outUnit)
  | Op.opGetRow pos => (s, OpOut.outRow (getRow s pos))
  | Op.opGetRowById id => (s, OpOut.outRowE (getRowById s id))
  | Op.opNestedJoin o ocn icn => (s, OpOut.outJoin (nestedLoopJoin s o ocn icn))
  | Op.opIndexJoin o ocn icn p => (s, OpOut.outJoin (indexNestedLoopJoin s o ocn icn p))

/-- State after one public operation. -/
def applyOp (s : TableState) (op : Op) : TableState := (execOp s op).1

/-- State after a sequence of public operations. -/
def applyOps (s : TableState) (ops : List Op) : TableState := ops.foldl applyOp s

/-- Sequential `insert`s (as `convertFromCSV` performs them): the final state
and the list of per-insert results. -/
def insertAll (s : TableState) : List (Int × List Str) → TableState × List (Except String Int)
  | [] => (s, [])
  | (ts, row) :: rest =>
    let r := insert s ts row
    let rr := insertAll r.1 rest
    (rr.1, r.2 :: rr.2)

/-! ## Helper lemmas -/

/-- Placeholder column for total list indexing in statements. -/
def dummyCol : SchemaCol := ⟨"", ColType.int32, 0⟩

theorem convertAndSave_length (v : Str) (c : SchemaCol) (bs : Str)
    (h : convertAndSave v c = Except.ok bs) : bs.length = c.getSize := by
  obtain ⟨nm, ty, w⟩ := c
  cases ty
  case int32 =>
    simp only [convertAndSave, Except.ok.injEq] at h
    subst h
    simp [SchemaCol.getSize, encIntBytes_length]
  case char =>
    simp only [convertAndSave, Except.ok.injEq] at h
    subst h
    exact strncpyBytes_length _ _
  case float =>
    simp only [convertAndSave, Except.ok.injEq] at h
    subst h
    simp [SchemaCol.getSize, natToBytes_length]
  case double =>
    simp only [convertAndSave, Except.ok.injEq] at h
    subst h
    simp [SchemaCol.getSize, natToBytes_length]
  case int64 =>
    simp only [convertAndSave] at h
    cases hs : stollM v with
    | error e => rw [hs] at h; simp [Except.map] at h
    | ok a =>
      rw [hs] at h
      simp only [Except.map, Except.ok.injEq] at h
      subst h
      simp [SchemaCol.getSize, encIntBytes_length]
  case foreignKey =>
    simp only [convertAndSave] at h
    cases hs : stollM v with
    | error e => rw [hs] at h; simp [Except.map] at h
    | ok a =>
      rw [hs] at h
      simp only [Except.map, Except.ok.injEq] at h
      subst h
      simp [SchemaCol.getSize, encIntBytes_length]

theorem writeRowVals_ok (schema : List SchemaCol) (vals : List Str) (i : Nat)
    (h : encodesFrom schema vals i = true) :
    (writeRowVals schema vals i).2 = Except.ok () := by
  induction vals generalizing i with
  | nil => rfl
  | cons v vs ih =>
    cases hg : schema[i]? with
    | none => simp [encodesFrom, hg] at h
    | some c =>
      cases hc : convertAndSave v c with
      | error e => simp [encodesFrom, hg, hc] at h
      | ok bs =>
        simp only [encodesFrom, hg, hc] at h
        simp only [writeRowVals, hg, hc]
        exact ih (i + 1) h

theorem writeRowVals_length (schema : List SchemaCol) (vals : List Str) (i : Nat)
    (hlen : i + vals.length = schema.length)
    (hok : (writeRowVals schema vals i).2 = Except.ok ()) :
    (writeRowVals schema vals i).1.length = schemaSize (schema.drop i) := by
  induction vals generalizing i with
  | nil =>
    have : schema.drop i = [] := by
      apply List.drop_eq_nil_of_le
      simp at hlen
      omega
    simp [writeRowVals, this, schemaSize]
  | cons v vs ih =>
    have hi : i < schema.length := by
      simp only [List.length_cons] at hlen
      omega
    cases hg : schema[i]? with
    | none =>
      exact absurd hg (by simp [List.getElem?_eq_getElem hi])
    | some c =>
      cases hc : convertAndSave v c with
      | error e => simp [writeRowVals, hg, hc] at hok
      | ok bs =>
        simp only [writeRowVals, hg, hc] at hok ⊢
        have hrest := ih (i + 1) (by simp only [List.length_cons] at hlen; omega) hok
        have hdrop : schema.drop i = c :: schema.drop (i + 1) := by
          have hcc : schema[i] = c := by
            have := List.getElem?_eq_getElem hi
            rw [hg] at this
            exact (Option.some_inj.mp this.symm)
          rw [List.drop_eq_getElem_cons hi, hcc]
        rw [hdrop]
        simp [schemaSize, List.length_append, convertAndSave_length v c bs hc, hrest]

theorem getRowCols_length (file : List Nat) :
    ∀ (cols : List SchemaCol) (off : Nat), (getRowCols file cols off).length = cols.length
  | [], _ => rfl
  | c :: cs, off => by
    simp [getRowCols, getRowCols_length file cs (off + c.getSize)]

theorem getRowCols_getD (file : List Nat) :
    ∀ (cols : List SchemaCol) (off i : Nat), i < cols.length →
      (getRowCols file cols off).getD i []
        = decodeCol (cols.getD i dummyCol)
            (readBytesAt file (off + schemaSize (cols.take i)) (cols.getD i dummyCol).getSize)
  | [], _, i, h => by simp at h
  | c :: cs, off, 0, _ => by
    simp [getRowCols, schemaSize]
  | c :: cs, off, i + 1, h => by
    simp only [getRowCols, List.getD_cons_succ, List.take_succ_cons]
    rw [getRowCols_getD file cs (off + c.getSize) i (by simpa using h)]
    congr 2
    simp [schemaSize]
    omega

/-- `insert` appends exactly one entry to the in-memory index — always, even
when the column loop throws. -/
theorem insert_header_eq (s : TableState) (ts : Int) (row : List Str) :
    (insert s ts row).1.header = s.header ++ [(insId s, insPos s)] := rfl

theorem insert_header_length (s : TableState) (ts : Int) (row : List Str) :
    (insert s ts row).1.header.length = s.header.length + 1 := by
  rw [insert_header_eq]
  simp

/-- The C3 invariant: the in-memory index holds exactly the ids 0, 1, 2, … in
order — every entry's id equals its zero-based position. -/
def idsSequential (s : TableState) : Prop :=
  s.header.map Prod.fst = (List.range s.header.length).map (fun i => (i : Int))

theorem idsSequential_insert (s : TableState) (ts : Int) (row : List Str)
    (h : idsSequential s) : idsSequential (insert s ts row).1 := by
  unfold idsSequential at h ⊢
  rw [insert_header_eq]
  simp only [List.map_append, List.length_append, List.map_cons, List.map_nil,
    List.length_cons, List.length_nil]
  rw [h]
  simp [List.range_succ, insId]

theorem idsSequential_applyOp (s : TableState) (op : Op) (h : idsSequential s) :
    idsSequential (applyOp s op) := by
  cases op with
  | opInsert ts row => exact idsSequential_insert s ts row h
  | opDrop => simp [applyOp, execOp, drop, idsSequential]
  | opGetRow pos => exact h
  | opGetRowById id => exact h
  | opNestedJoin o ocn icn => exact h
  | opIndexJoin o ocn icn p => exact h

theorem idsSequential_applyOps (s : TableState) (ops : List Op) (h : idsSequential s) :
    idsSequential (applyOps s ops) := by
  induction ops generalizing s with
  | nil => exact h
  | cons op rest ih => exact ih _ (idsSequential_applyOp s op h)

theorem insertAll_results (inputs : List (Int × List Str)) :
    ∀ (s : TableState) (k : Nat) (h : k < ((insertAll s inputs).2).length),
      ((insertAll s inputs).2).get ⟨k, h⟩ = Except.ok ((s.header.length + k : Nat) : Int)
        ∨ ∃ e, ((insertAll s inputs).2).get ⟨k, h⟩ = Except.error e := by
  induction inputs with
  | nil => intro s k h; simp [insertAll] at h
  | cons p rest ih =>
    obtain ⟨ts, row⟩ := p
    intro s k h
    cases k with
    | zero =>
      simp only [insertAll, List.get]
      cases hb : (writeRowVals s.schema (intText (insId s) :: row) 0).2 with
      | ok u =>
        left
        simp only [insId] at hb
        simp [insert, insId, hb, Except.map]
      | error e =>
        right
        refine ⟨e, ?_⟩
        simp only [insId] at hb
        simp [insert, insId, hb, Except.map]
    | succ k =>
      simp only [insertAll, List.get]
      have hlen : k < ((insertAll (insert s ts row).1 rest).2).length := by
        simp only [insertAll, List.length_cons] at h
        omega
      have := ih (insert s ts row).1 k hlen
      rw [insert_header_length] at this
      have harith : s.header.length + 1 + k = s.header.length + (k + 1) := by omega
      rw [harith] at this
      exact this

/-- Accumulator form of a loop that appends one block per element. -/
theorem foldl_append_flatten {α β : Type} (g : α → List β) (l : List α) :
    ∀ init : List β, l.foldl (fun acc x => acc ++ g x) init = init ++ (l.map g).flatten := by
  induction l with
  | nil => intro init; simp
  | cons a as ih =>
    intro init
    simp only [List.foldl_cons, List.map_cons, List.flatten_cons, ih, List.append_assoc]

theorem flatten_map_if {α β : Type} (P : α → Prop) [DecidablePred P] (f : α → β) (l : List α) :
    (l.map (fun x => if P x then [f x] else [])).flatten
      = (l.filter (fun x => decide (P x))).map f := by
  induction l with
  | nil => rfl
  | cons a as ih =>
    by_cases h : P a <;> simp [h, ih, List.filter_cons]

/-- A conditional `push_back` loop in accumulator form. -/
theorem foldl_if_append {α β : Type} (P : α → Prop) [DecidablePred P] (f : α → β) (l : List α)
    (init : List β) :
    l.foldl (fun acc x => if P x then acc ++ [f x] else acc) init
      = init ++ (l.filter (fun x => decide (P x))).map f := by
  have hbody : (fun (acc : List β) (x : α) => if P x then acc ++ [f x] else acc)
      = fun acc x => acc ++ (if P x then [f x] else []) := by
    funext acc x
    by_cases h : P x <;> simp [h]
  rw [hbody, foldl_append_flatten, flatten_map_if]

/-! ## Concrete fixtures (the two-store instance of §8, and small stores) -/

/-- Schema of the inner store "Person": implicit `_id`, `dre`, fixed text name. -/
def personSchema : List SchemaCol :=
  [⟨"_id", ColType.int64, 8⟩, ⟨"dre", ColType.int64, 8⟩, ⟨"name", ColType.char, 20⟩]

/-- The "Person" store after inserting `("9","Jhoe")` and `("10","Marta")`. -/
def person : TableState :=
  (insert (insert (mkEmpty (txt "Person") personSchema) 0 [txt "9", txt "Jhoe"]).1
    0 [txt "10", txt "Marta"]).1

/-- Schema of the outer store "Worked": implicit `_id`, `id_company`, `id_person`. -/
def workedSchema : List SchemaCol :=
  [⟨"_id", ColType.int64, 8⟩, ⟨"id_company", ColType.int64, 8⟩,
   ⟨"id_person", ColType.foreignKey, 8⟩]

/-- The "Worked" store after inserting `("77","9")`, `("35","10")`, `("44","10")`. -/
def worked : TableState :=
  (insert (insert (insert (mkEmpty (txt "Worked") workedSchema) 0 [txt "77", txt "9"]).1
    0 [txt "35", txt "10"]).1 0 [txt "44", txt "10"]).1

/-- A two-column store (`_id`, one INT32 column) used for failing inputs. -/
def tinySchema : List SchemaCol := [⟨"_id", ColType.int64, 8⟩, ⟨"x", ColType.int32, 4⟩]

/-- A freshly opened empty store over `tinySchema`. -/
def tinyT : TableState := mkEmpty (txt "T") tinySchema

/-- A one-column store (only the implicit `_id`). -/
def oneColT : TableState := mkEmpty (txt "U") [⟨"_id", ColType.int64, 8⟩]

/-- No index entry points past the end of the data file: every entry has a
nonnegative offset and a full record (header + payload) within the file. -/
def indexIntact (s : TableState) : Prop :=
  ∀ e ∈ s.header,
    0 ≤ e.2 ∧ e.2.toNat + headerSize + schemaSize s.schema ≤ (s.dataFile.getD []).length

/-- Decode of encode: what `getRow`'s per-column decode returns for the bytes
`convertAndSave` writes. -/
def encDec (v : Str) (c : SchemaCol) : Except String Str :=
  (convertAndSave v c).map (decodeCol c)

/-- A FLOAT column. -/
def floatCol : SchemaCol := ⟨"x", ColType.float, 4⟩

/-! ## The claims -/

/-- C10: the read operations are pure — `getRow`, `getRowById`,
`nestedLoopJoin` and `indexNestedLoopJoin` leave the store's state (in-memory
index and both backing files) exactly as it was. -/
theorem c10_reads_pure :
    ∀ (s outer : TableState) (pos id : Int) (ocn icn : String) (p : Nat),
      (execOp s (Op.opGetRow pos)).1 = s ∧
      (execOp s (Op.opGetRowById id)).1 = s ∧
      (execOp s (Op.opNestedJoin outer ocn icn)).1 = s ∧
      (execOp s (Op.opIndexJoin outer ocn icn p)).1 = s :=
  fun _ _ _ _ _ _ _ => ⟨rfl, rfl, rfl, rfl⟩

/-- C2, evaluated at the failing input: on a two-row store, `getRowById`
returns the correct rows for ids 0 and 1 and "not found" (the empty row) for
a negative id, but for `id = row_count()` the `lower_bound` binary search
returns `end()` and `header->at(idx)` throws `std::out_of_range` instead of
producing the not-found outcome the claim requires. -/
theorem c2_id_lookup_eval :
    rowCount person = 2 ∧
    getRowById person 0 = Except.ok [txt "0", txt "9", txt "Jhoe"] ∧
    getRowById person 1 = Except.ok [txt "1", txt "10", txt "Marta"] ∧
    getRowById person (-1) = Except.ok [] ∧
    getRowById person 2 = Except.error "vector::at out_of_range" := by decide

/-- C3: for a freshly opened empty store the k-th `insert` returns row id
`k-1` (0-based index `k` returns id `k`, unless the encode step throws), and
after every sequence of public operations the in-memory index holds ids
0, 1, 2, … with each entry's id equal to its zero-based position. -/
theorem c3_monotonic_ids :
    (∀ (name : Str) (schema : List SchemaCol) (ops : List Op),
      idsSequential (applyOps (mkEmpty name schema) ops)) ∧
    (∀ (name : Str) (schema : List SchemaCol) (inputs : List (Int × List Str)) (k : Nat)
      (h : k < ((insertAll (mkEmpty name schema) inputs).2).length),
      ((insertAll (mkEmpty name schema) inputs).2).get ⟨k, h⟩ = Except.ok (k : Int)
        ∨ ∃ e, ((insertAll (mkEmpty name schema) inputs).2).get ⟨k, h⟩ = Except.error e) := by
  constructor
  · intro name schema ops
    exact idsSequential_applyOps _ ops (by simp [mkEmpty, idsSequential])
  · intro name schema inputs k h
    have := insertAll_results inputs (mkEmpty name schema) k h
    simpa [mkEmpty] using this

/-- Witness for C3 at concrete inputs, including a `drop` in the middle. -/
theorem c3_monotonic_ids_witness :
    idsSequential (applyOps (mkEmpty (txt "T") tinySchema)
      [Op.opInsert 0 [txt "7"], Op.opDrop, Op.opInsert 0 [txt "8"]]) ∧
    (((insertAll (mkEmpty (txt "T") tinySchema) [(0, [txt "7"]), (0, [txt "8"])]).2).get
        ⟨1, by decide⟩ = Except.ok 1
      ∨ ∃ e, ((insertAll (mkEmpty (txt "T") tinySchema) [(0, [txt "7"]), (0, [txt "8"])]).2).get
        ⟨1, by decide⟩ = Except.error e) :=
  ⟨c3_monotonic_ids.1 (txt "T") tinySchema _,
   c3_monotonic_ids.2 (txt "T") tinySchema [(0, [txt "7"]), (0, [txt "8"])] 1 (by decide)⟩

/-- C5: the §8 two-store instance.  The inner store holds `(0,"9","Jhoe")` and
`(1,"10","Marta")` at offsets 0 and 303, the outer store `(0,"77","9")`,
`(1,"35","10")`, `(2,"44","10")` at offsets 0, 291, 582, and the full
nested-loop join on `id_person` = `dre` returns exactly the three offset
pairs, as a duplicate-free set. -/
theorem c5_join_example :
    getRow person ((person.header.getD 0 (0, 0)).2) = [txt "0", txt "9", txt "Jhoe"] ∧
    getRow person ((person.header.getD 1 (0, 0)).2) = [txt "1", txt "10", txt "Marta"] ∧
    getRow worked ((worked.header.getD 0 (0, 0)).2) = [txt "0", txt "77", txt "9"] ∧
    getRow worked ((worked.header.getD 1 (0, 0)).2) = [txt "1", txt "35", txt "10"] ∧
    getRow worked ((worked.header.getD 2 (0, 0)).2) = [txt "2", txt "44", txt "10"] ∧
    rowCount person = 2 ∧ rowCount worked = 3 ∧
    (nestedLoopJoin person worked "id_person" "dre").toFinset
      = ({[(person.header.getD 0 (0, 0)).2, (worked.header.getD 0 (0, 0)).2],
          [(person.header.getD 1 (0, 0)).2, (worked.header.getD 1 (0, 0)).2],
          [(person.header.getD 1 (0, 0)).2, (worked.header.getD 2 (0, 0)).2]} :
          Finset (List Int)) ∧
    (nestedLoopJoin person worked "id_person" "dre").Nodup := by decide

/-- C6: the seeded join at a valid inner position `p` returns exactly the
pairs the full join emits during its inner iteration at `p` — the ascending
outer positions whose decoded column texts match, mapped to the offset pair —
and the full join is the concatenation of the seeded joins over all inner
positions. -/
theorem c6_seeded_join_refines :
    ∀ (inner outer : TableState) (ocn icn : String) (p : Nat), p < inner.header.length →
      indexNestedLoopJoin inner outer ocn icn p
        = ((List.range outer.header.length).filter (fun j =>
              decide ((getRow inner (inner.header.getD p (0, 0)).2).getD
                  (getColPosition inner.schema icn) []
                = (getRow outer (outer.header.getD j (0, 0)).2).getD
                  (getColPosition outer.schema ocn) []))).map
            (fun j => [(inner.header.getD p (0, 0)).2, (outer.header.getD j (0, 0)).2])
      ∧ nestedLoopJoin inner outer ocn icn
        = ((List.range inner.header.length).map
            (fun i => indexNestedLoopJoin inner outer ocn icn i)).flatten := by
  intro inner outer ocn icn p hp
  constructor
  · unfold indexNestedLoopJoin
    rw [foldl_if_append]
    simp
  · unfold nestedLoopJoin
    have hF : (fun (acc : List (List Int)) (i : Nat) =>
        (List.range outer.header.length).foldl (fun acc2 j =>
          if (getRow inner (inner.header.getD i (0, 0)).2).getD
                (getColPosition inner.schema icn) []
              = (getRow outer (outer.header.getD j (0, 0)).2).getD
                (getColPosition outer.schema ocn) [] then
            acc2 ++ [[(inner.header.getD i (0, 0)).2, (outer.header.getD j (0, 0)).2]]
          else acc2) acc)
        = fun acc i => acc ++
            ((List.range outer.header.length).filter (fun j =>
              decide ((getRow inner (inner.header.getD i (0, 0)).2).getD
                  (getColPosition inner.schema icn) []
                = (getRow outer (outer.header.getD j (0, 0)).2).getD
                  (getColPosition outer.schema ocn) []))).map
              (fun j => [(inner.header.getD i (0, 0)).2, (outer.header.getD j (0, 0)).2]) := by
      funext acc i
      exact foldl_if_append _ _ _ acc
    rw [hF, foldl_append_flatten]
    simp only [List.nil_append]
    congr 1
    congr 1
    funext i
    unfold indexNestedLoopJoin
    rw [foldl_if_append]
    simp

/-- Witness for C6 at the §8 instance, seeded at inner position 1. -/
theorem c6_seeded_join_refines_witness :
    indexNestedLoopJoin person worked "id_person" "dre" 1
      = ((List.range worked.header.length).filter (fun j =>
            decide ((getRow person (person.header.getD 1 (0, 0)).2).getD
                (getColPosition person.schema "dre") []
              = (getRow worked (worked.header.getD j (0, 0)).2).getD
                (getColPosition worked.schema "id_person") []))).map
          (fun j => [(person.header.getD 1 (0, 0)).2, (worked.header.getD j (0, 0)).2])
    ∧ nestedLoopJoin person worked "id_person" "dre"
      = ((List.range person.header.length).map
          (fun i => indexNestedLoopJoin person worked "id_person" "dre" i)).flatten :=
  c6_seeded_join_refines person worked "id_person" "dre" 1 (by decide)

/-- C7 counterexample: inserting the unparsable INT32 text "abc" does not fail
with any encoding error and does not leave the store untouched — the insert
returns row id 0, the in-memory index and index file gain the entry, and the
data file receives the record header plus the id and a zero-encoded INT32
field (`atoi("abc") = 0`). -/
theorem c7_counterexample :
    (insert tinyT 0 [txt "abc"]).2 = Except.ok 0 ∧
    (insert tinyT 0 [txt "abc"]).1.header = [(0, 0)] ∧
    (insert tinyT 0 [txt "abc"]).1.headerFile = some (encIntBytes 8 0 ++ encIntBytes 8 0) ∧
    (insert tinyT 0 [txt "abc"]).1.dataFile
      = some (regHeaderBytes tinyT 0 ++ (encIntBytes 8 0 ++ (encIntBytes 4 0 ++ []))) ∧
    convertAndSave (txt "abc") ⟨"x", ColType.int32, 4⟩ = Except.ok (encIntBytes 4 0) := by
  decide

/-- C7 amended: `insert` validates nothing before writing.  The index entry is
appended (memory and file) and the record header written regardless of how
encoding turns out; INT32 columns encode unparsable text silently as 0 and
FLOAT/DOUBLE columns never fail either; only the `stoll` columns
(INT64/FOREIGN_KEY) or a row longer than the schema throw — after the
writes — and when no exception occurs the insert returns the new id. -/
theorem c7_no_validation_amended :
    ∀ (s : TableState) (ts : Int) (row : List Str),
      (insert s ts row).1.header = s.header ++ [(insId s, insPos s)] ∧
      (insert s ts row).1.headerFile
        = some ((s.headerFile.getD []) ++ encIntBytes 8 (insId s) ++ encIntBytes 8 (insPos s)) ∧
      (∃ body, (insert s ts row).1.dataFile
          = some ((s.dataFile.getD []) ++ regHeaderBytes s ts ++ body)) ∧
      (encodesFrom s.schema (intText (insId s) :: row) 0 = true →
        (insert s ts row).2 = Except.ok (insId s)) ∧
      (∀ (v : Str) (c : SchemaCol), c.type = ColType.int32 →
        convertAndSave v c = Except.ok (encIntBytes 4 (atoiM v))) ∧
      (∀ (v : Str) (c : SchemaCol), c.type = ColType.float ∨ c.type = ColType.double →
        ∃ bs, convertAndSave v c = Except.ok bs) := by
  intro s ts row
  refine ⟨rfl, rfl, ⟨_, rfl⟩, ?_, ?_, ?_⟩
  · intro h
    have hok := writeRowVals_ok s.schema (intText (insId s) :: row) 0 h
    show (writeRowVals s.schema (intText (insId s) :: row) 0).2.map (fun _ => insId s)
      = Except.ok (insId s)
    rw [hok]
    rfl
  · intro v c hc
    obtain ⟨nm, ty, w⟩ := c
    have hty : ty = ColType.int32 := hc
    subst hty
    rfl
  · intro v c hc
    obtain ⟨nm, ty, w⟩ := c
    rcases hc with hc | hc
    · have hty : ty = ColType.float := hc
      subst hty
      exact ⟨_, rfl⟩
    · have hty : ty = ColType.double := hc
      subst hty
      exact ⟨_, rfl⟩

/-- Witness for C7 amended at concrete inputs. -/
theorem c7_no_validation_amended_witness :
    (insert tinyT 0 [txt "5"]).2 = Except.ok (insId tinyT) ∧
    convertAndSave (txt "abc") ⟨"x", ColType.int32, 4⟩
      = Except.ok (encIntBytes 4 (atoiM (txt "abc"))) ∧
    (∃ bs, convertAndSave (txt "2.5") ⟨"f", ColType.float, 4⟩ = Except.ok bs) := by
  obtain ⟨h1, h2, h3, h4, h5, h6⟩ := c7_no_validation_amended tinyT 0 [txt "5"]
  exact ⟨h4 (by decide), h5 (txt "abc") _ rfl, h6 (txt "2.5") _ (Or.inl rfl)⟩

/-- C8 counterexample: reading offset 0 of a store whose data file does not
even exist (length 0, far short of the 279 bytes a record needs) produces no
`RecordReadError` — `getRow` returns a complete row, decoded from the
untouched buffer. -/
theorem c8_counterexample :
    ((mkEmpty (txt "T") tinySchema).dataFile.getD []).length = 0 ∧
    headerSize + schemaSize tinySchema = 279 ∧
    getRow (mkEmpty (txt "T") tinySchema) 0 = [txt "0", txt "0"] ∧
    (getRow (mkEmpty (txt "T") tinySchema) 0).length = tinySchema.length := by decide

/-- C8 amended: `getRow` seeks to the offset, skips the fixed-width record
header, then reads and decodes each schema column's fixed-width field in
schema order at its accumulated offset — and it always returns a row of one
decoded value per schema column; when the file is shorter than required the
reads fail silently and the row is decoded from unspecified buffer contents
instead of any `RecordReadError`. -/
theorem c8_read_at_amended :
    ∀ (s : TableState) (pos : Int),
      (getRow s pos).length = s.schema.length ∧
      ∀ i, i < s.schema.length →
        (getRow s pos).getD i []
          = decodeCol (s.schema.getD i dummyCol)
              (readBytesAt (s.dataFile.getD [])
                (pos.toNat + headerSize + schemaSize (s.schema.take i))
                (s.schema.getD i dummyCol).getSize) := by
  intro s pos
  constructor
  · exact getRowCols_length _ _ _
  · intro i hi
    exact getRowCols_getD (s.dataFile.getD []) s.schema (pos.toNat + headerSize) i hi

/-- Witness for C8 amended: the second column of the second Person record. -/
theorem c8_read_at_amended_witness :
    (getRow person 303).length = person.schema.length ∧
    (getRow person 303).getD 1 []
      = decodeCol (person.schema.getD 1 dummyCol)
          (readBytesAt (person.dataFile.getD [])
            ((303 : Int).toNat + headerSize + schemaSize (person.schema.take 1))
            (person.schema.getD 1 dummyCol).getSize) :=
  ⟨(c8_read_at_amended person 303).1, (c8_read_at_amended person 303).2 1 (by decide)⟩

/-- C9 counterexample: after `drop`, the operations do not fail with any
`InvalidState`: `insert` recreates the files and succeeds returning id 0,
`getRow` silently returns a zero-decoded row, and `getRowById` throws
`std::out_of_range` from `header->at` on the empty index. -/
theorem c9_counterexample :
    (insert (drop person) 0 [txt "1", txt "A"]).2 = Except.ok 0 ∧
    (insert (drop person) 0 [txt "1", txt "A"]).1.dataFile ≠ none ∧
    getRow (drop person) 0 = [txt "0", txt "0", txt ""] ∧
    getRowById (drop person) 0 = Except.error "vector::at out_of_range" := by decide

/-- C9 amended: after `drop()` the row count is 0 and both backing files are
absent (the true half of the claim); but subsequent operations do not fail
with `InvalidState`: a well-formed `insert` recreates the files and succeeds
with id 0, `getRowById` throws `out_of_range` from `at()` on the empty index,
and `getRow` still returns a full-length row. -/
theorem c9_drop_amended :
    ∀ (s : TableState) (ts : Int) (row : List Str) (id pos : Int),
      rowCount (drop s) = 0 ∧
      (drop s).dataFile = none ∧
      (drop s).headerFile = none ∧
      (encodesFrom s.schema (intText 0 :: row) 0 = true →
        (insert (drop s) ts row).2 = Except.ok 0) ∧
      getRowById (drop s) id = Except.error "vector::at out_of_range" ∧
      (getRow (drop s) pos).length = s.schema.length := by
  intro s ts row id pos
  refine ⟨rfl, rfl, rfl, ?_, rfl, getRowCols_length _ _ _⟩
  intro h
  have hok := writeRowVals_ok s.schema (intText 0 :: row) 0 h
  have hok2 : (writeRowVals (drop s).schema (intText (insId (drop s)) :: row) 0).2
      = Except.ok () := hok
  show (writeRowVals (drop s).schema (intText (insId (drop s)) :: row) 0).2.map
      (fun _ => insId (drop s)) = Except.ok 0
  rw [hok2]
  rfl

/-- Witness for C9 amended at a concrete store. -/
theorem c9_drop_amended_witness :
    rowCount (drop person) = 0 ∧
    (insert (drop person) 0 [txt "1", txt "A"]).2 = Except.ok 0 :=
  ⟨(c9_drop_amended person 0 [txt "1", txt "A"] 0 0).1,
   (c9_drop_amended person 0 [txt "1", txt "A"] 0 0).2.2.2.1 (by decide)⟩

instance indexIntactDec (s : TableState) : Decidable (indexIntact s) := by
  unfold indexIntact
  infer_instance

/-- C1 counterexample: on a freshly opened one-column store (trivially
intact), one `insert` step sequence violates the claim — right after the
`insertOnHeaderFile` step the index already holds the entry `(0, 0)` while the
data file is still empty, so the entry points past the end of the data file.
The data-file write has not completed before the index append; it has not even
begun. -/
theorem c1_counterexample :
    indexIntact oneColT ∧
    ¬ (∀ σ ∈ insertStates oneColT 0 [], indexIntact σ) ∧
    (insIndexed oneColT).header = [(0, 0)] ∧
    (insIndexed oneColT).dataFile = some [] := by decide

/-- C1 amended: within `insert` the order is reversed — the `(row_id, offset)`
pair is appended to the index file and the in-memory index before any byte of
the record is written (at that step the data file still has its old length,
so the fresh entry, which points at end-of-file, always points past the data
present); only after a successful insert of a row matching the schema does
every index entry again point at a complete record. -/
theorem c1_insert_order_amended :
    ∀ (s : TableState) (ts : Int) (row : List Str),
      (insIndexed s).header = s.header ++ [(insId s, insPos s)] ∧
      (insIndexed s).headerFile
        = some ((s.headerFile.getD []) ++ encIntBytes 8 (insId s) ++ encIntBytes 8 (insPos s)) ∧
      (insIndexed s).dataFile = some (s.dataFile.getD []) ∧
      ¬ indexIntact (insIndexed s) ∧
      (indexIntact s → row.length + 1 = s.schema.length →
        encodesFrom s.schema (intText (insId s) :: row) 0 = true →
        indexIntact (insert s ts row).1) := by
  intro s ts row
  refine ⟨rfl, rfl, rfl, ?_, ?_⟩
  · intro hall
    have hmem : (insId s, insPos s) ∈ (insIndexed s).header := by
      show (insId s, insPos s) ∈ s.header ++ [(insId s, insPos s)]
      simp
    obtain ⟨h0, hle⟩ := hall _ hmem
    have hle2 : (insPos s).toNat + headerSize + schemaSize s.schema
        ≤ (s.dataFile.getD []).length := hle
    have hpos : (insPos s).toNat = (s.dataFile.getD []).length := by
      simp [insPos]
    have h267 : headerSize = 267 := rfl
    omega
  · intro hintact hrow henc
    intro e hmem
    rw [insert_header_eq] at hmem
    have hok := writeRowVals_ok s.schema (intText (insId s) :: row) 0 henc
    have hbody : (writeRowVals s.schema (intText (insId s) :: row) 0).1.length
        = schemaSize s.schema := by
      have h := writeRowVals_length s.schema (intText (insId s) :: row) 0
        (by simp only [List.length_cons, Nat.zero_add]; exact hrow) hok
      simpa using h
    have hfl : ((insert s ts row).1.dataFile.getD []).length
        = (s.dataFile.getD []).length + headerSize + schemaSize s.schema := by
      show ((s.dataFile.getD []) ++ regHeaderBytes s ts
        ++ (writeRowVals s.schema (intText (insId s) :: row) 0).1).length = _
      simp only [List.length_append, regHeaderBytes, strncpyBytes_length, natToBytes_length,
        encIntBytes_length, hbody, headerSize]
    have hs2 : (insert s ts row).1.schema = s.schema := rfl
    rcases List.mem_append.mp hmem with hold | hnew
    · obtain ⟨h0, hle⟩ := hintact e hold
      refine ⟨h0, ?_⟩
      rw [hs2, hfl]
      omega
    · simp only [List.mem_singleton] at hnew
      subst hnew
      have hpos : (insPos s).toNat = (s.dataFile.getD []).length := by
        simp [insPos]
      refine ⟨by simp [insPos], ?_⟩
      rw [hs2, hfl]
      simp only
      omega

/-- Witness for C1 amended: the one-column store with the row `(0)`. -/
theorem c1_insert_order_amended_witness :
    (insIndexed tinyT).header = [(0, 0)] ∧
    ¬ indexIntact (insIndexed tinyT) ∧
    indexIntact (insert tinyT 0 [txt "5"]).1 := by
  obtain ⟨h1, h2, h3, h4, h5⟩ := c1_insert_order_amended tinyT 0 [txt "5"]
  exact ⟨by decide, h4, h5 (by decide) (by decide) (by decide)⟩

/-- C4 counterexample: value "1048577" in a FLOAT column.  The stored binary32
value is exactly 1048577 (= 8388616/8), yet decoding prints the stream default
of 6 significant digits, "1.04858e+06", which denotes 1048580 — off by 3,
whereas one unit in the last place of binary32 at this magnitude is 1/8.  The
round trip is neither the identity nor within the representable precision of
the type. -/
theorem c4_counterexample :
    encDec (txt "1048577") floatCol = Except.ok (txt "1.04858e+06") ∧
    txt "1.04858e+06" ≠ txt "1048577" ∧
    atofVal (txt "1048577") = (false, 1048577, 1) ∧
    atofVal (txt "1.04858e+06") = (false, 1048580, 1) ∧
    fvalOfBits 23 8 (fbits 23 8 false 1048577 1) = (false, 8388616, 8) ∧
    (8388616 : Nat) = 1048577 * 8 ∧
    (1048580 - 1048577 : Int) * 8 > 1 := by decide

/-- C4 amended: decode after encode is the identity for the integer types
(INT32 exactly within the 32-bit range; INT64 and FOREIGN_KEY within the
64-bit range), and for fixed text it is the value truncated or zero-padded to
the byte width and trimmed at the first terminator; for FLOAT/DOUBLE the
decoded text is the stored IEEE-754 value rendered by the stream default of
6 significant digits (`%g`), which can deviate from the input by more than
the type's representable precision. -/
theorem c4_roundtrip_amended :
    (∀ (n : Int) (c : SchemaCol), c.type = ColType.int32 →
      -(2 ^ 31) ≤ n → n < 2 ^ 31 → encDec (intText n) c = Except.ok (intText n)) ∧
    (∀ (n : Int) (c : SchemaCol), c.type = ColType.int64 ∨ c.type = ColType.foreignKey →
      -(2 ^ 63) ≤ n → n < 2 ^ 63 → encDec (intText n) c = Except.ok (intText n)) ∧
    (∀ (v : Str) (c : SchemaCol), c.type = ColType.char →
      encDec v c
        = Except.ok ((padTrunc c.getSize v).takeWhile (fun ch => decide (ch ≠ 0)))) ∧
    (∀ (v : Str) (c : SchemaCol), c.type = ColType.float →
      encDec v c = Except.ok (fmtG6v (fvalOfBits 23 8
        (fbits 23 8 (atofVal v).1 (atofVal v).2.1 (atofVal v).2.2 % 2 ^ 32)))) ∧
    (∀ (v : Str) (c : SchemaCol), c.type = ColType.double →
      encDec v c = Except.ok (fmtG6v (fvalOfBits 52 11
        (fbits 52 11 (atofVal v).1 (atofVal v).2.1 (atofVal v).2.2 % 2 ^ 64)))) := by
  refine ⟨?_, ?_, ?_, ?_, ?_⟩
  · intro n c hc h1 h2
    obtain ⟨nm, ty, w⟩ := c
    have hty : ty = ColType.int32 := hc
    subst hty
    simp only [encDec, convertAndSave, Except.map, decodeCol]
    rw [atoiM_intText, decEncIntBytes 4 n (by norm_num) h1 h2]
  · intro n c hc h1 h2
    obtain ⟨nm, ty, w⟩ := c
    rcases hc with hc | hc
    · have hty : ty = ColType.int64 := hc
      subst hty
      simp only [encDec, convertAndSave]
      rw [stollM_intText n h1 h2]
      simp only [Except.map, decodeCol]
      rw [decEncIntBytes 8 n (by norm_num) h1 h2]
    · have hty : ty = ColType.foreignKey := hc
      subst hty
      simp only [encDec, convertAndSave]
      rw [stollM_intText n h1 h2]
      simp only [Except.map, decodeCol]
      rw [decEncIntBytes 8 n (by norm_num) h1 h2]
  · intro v c hc
    obtain ⟨nm, ty, w⟩ := c
    have hty : ty = ColType.char := hc
    subst hty
    simp only [encDec, convertAndSave, Except.map, decodeCol]
    rw [trim_strncpy_eq_trim_padTrunc]
  · intro v c hc
    obtain ⟨nm, ty, w⟩ := c
    have hty : ty = ColType.float := hc
    subst hty
    simp only [encDec, convertAndSave, Except.map, decodeCol, fmtG6v]
    rw [bytesToNat_natToBytes]
  · intro v c hc
    obtain ⟨nm, ty, w⟩ := c
    have hty : ty = ColType.double := hc
    subst hty
    simp only [encDec, convertAndSave, Except.map, decodeCol, fmtG6v]
    rw [bytesToNat_natToBytes]

/-- Witness for C4 amended: one concrete value per column type. -/
theorem c4_roundtrip_amended_witness :
    encDec (intText (-123)) ⟨"a", ColType.int32, 4⟩ = Except.ok (intText (-123)) ∧
    encDec (intText 9) ⟨"b", ColType.foreignKey, 8⟩ = Except.ok (intText 9) ∧
    encDec (txt "hello world") ⟨"c", ColType.char, 5⟩
      = Except.ok ((padTrunc (SchemaCol.mk "c" ColType.char 5).getSize (txt "hello world")).takeWhile
          (fun ch => decide (ch ≠ 0))) ∧
    encDec (txt "1048577") floatCol
      = Except.ok (fmtG6v (fvalOfBits 23 8
          (fbits 23 8 (atofVal (txt "1048577")).1 (atofVal (txt "1048577")).2.1
            (atofVal (txt "1048577")).2.2 % 2 ^ 32))) ∧
    encDec (txt "0.1") ⟨"d", ColType.double, 8⟩
      = Except.ok (fmtG6v (fvalOfBits 52 11
          (fbits 52 11 (atofVal (txt "0.1")).1 (atofVal (txt "0.1")).2.1
            (atofVal (txt "0.1")).2.2 % 2 ^ 64))) :=
  ⟨c4_roundtrip_amended.1 (-123) ⟨"a", ColType.int32, 4⟩ rfl (by norm_num) (by norm_num),
   c4_roundtrip_amended.2.1 9 ⟨"b", ColType.foreignKey, 8⟩ (Or.inr rfl) (by norm_num)
     (by norm_num),
   c4_roundtrip_amended.2.2.1 (txt "hello world") ⟨"c", ColType.char, 5⟩ rfl,
   c4_roundtrip_amended.2.2.2.1 (txt "1048577") floatCol rfl,
   c4_roundtrip_amended.2.2.2.2 (txt "0.1") ⟨"d", ColType.double, 8⟩ rfl⟩

end NaiveDB
